import Mathlib

/-!
# Secure Session Engine — verification development

This file embeds the MPC agent sample: the single source file under
`src/samples/js/src/agents/mpcf-agent/genkit.ts` (the Bob WebSocket host and the
Alice `guessNumber` tool glue) together with the Secure Session Engine it drives
(`src/mpcf/generateProtocol.ts` and the circuit `src/mpcf/circuits/main.ts`,
which are part of the repository but not present in the corpus; those parts are
modelled from the specification, and each such definition says so in its doc
comment).

The engine is a message-driven state machine: `join` validates a party and its
private input and creates a `Session`; `handleMessage` feeds inbound protocol
messages (tagged with gate id and round index) into the session, buffering
messages for gates not yet reached; the resolved output is observable through
`Session.outputNow`, the pure counterpart of the promise-returning `output()`.
-/

/-- Party identifiers are opaque strings ("alice", "bob"). -/
abbrev PartyId := String

/-- Modelled from the spec: a `ProtocolMessage` of the missing engine
(`src/mpcf/generateProtocol.ts`): an opaque payload tagged with a gate id and a
round index, the wire format of §6. -/
structure Msg where
  gate : Nat
  round : Nat
  data : Int
deriving DecidableEq

/-- Modelled from the spec: one gate of the missing compiled-circuit
representation. A gate names the input wires each party reads locally, the
output wires it resolves, the number of inbound interactive rounds each party
expects, the payloads a party emits when the gate activates, and the local
computation run once all inbound round payloads are present (§3, §4.4). -/
structure Gate where
  deps : PartyId → List Nat
  outWires : List Nat
  rounds : PartyId → Nat
  send : PartyId → List Int → List Int
  compute : PartyId → List Int → List Int → List Int

/-- Modelled from the spec: the missing `CompiledCircuit` — an ordered list of
gates plus the mapping from (owner, input name) to input wires and from output
names to output wires (§3). -/
structure Circuit where
  gates : List Gate
  inputs : List (PartyId × String × Nat)
  outputs : List (String × Nat)

/-- Fatal protocol faults (§7); they transition the session to `Aborted`. -/
inductive Fault where
  | BufferOverflow
  | CryptoCheckFailed
  | MalformedPayload
  | TransportFailure
deriving DecidableEq

/-- Recoverable / terminal errors returned by `handleMessage` (§4.2, §7). -/
inductive MsgError where
  | UnexpectedMessage
  | SessionClosed
deriving DecidableEq

/-- Errors failing `join` synchronously (§4.1, §7). -/
inductive JoinError where
  | UnknownParty
  | MissingInput
deriving DecidableEq

/-- The session state machine's states (§4.2). -/
inductive Status where
  | running
  | completed
  | aborted
deriving DecidableEq

/-- Modelled from the spec: one party's live `Session` of the missing engine.
Static fields bind the circuit, the party, its peer and the configured
buffered-message bound; `initWires` are the input wires resolved from the
private input at `join`; `q g` is the stream of accepted inbound payloads for
gate `g` (both the buffer for gates not yet reached and the consumed rounds of
reached gates); `fault` records an abort. -/
structure Session where
  circuit : Circuit
  maxBuffered : Nat
  me : PartyId
  peer : PartyId
  initWires : List (Nat × Int)
  q : Nat → List Int
  fault : Option Fault

/-- Look up a wire's resolved value (first binding wins, so a resolved
`WireValue` is never re-resolved by later appends). -/
def lookupWire (ws : List (Nat × Int)) (i : Nat) : Option Int :=
  (ws.find? (fun p => p.1 == i)).map (fun p => p.2)

/-- Look up a named entry in a private-input record. -/
def lookupEntry (l : List (String × Int)) (k : String) : Option Int :=
  (l.find? (fun p => p.1 == k)).map (fun p => p.2)

/-- Look up every wire in a list; `some` exactly when all are resolved. -/
def lookupAll (ws : List (Nat × Int)) : List Nat → Option (List Int)
  | [] => some []
  | i :: rest =>
    match lookupWire ws i, lookupAll ws rest with
    | some v, some vs => some (v :: vs)
    | _, _ => none

/-- Result of deterministically evaluating the gate list against the accepted
message streams: the first unevaluable gate's index, the resolved wires, and
the outbound messages emitted so far. -/
structure EvalOut where
  pos : Nat
  wires : List (Nat × Int)
  sent : List Msg
deriving DecidableEq

/-- Modelled from the spec: the deterministic evaluation core of the missing
engine. Gates are evaluated in declared order (§4.3); a gate activates once its
locally-read wires are resolved, emitting its outbound payloads; it completes
once its expected inbound rounds are present in its stream, resolving its
output wires; evaluation stops at the first gate that is stuck awaiting wires
or messages. -/
def runGates (me : PartyId) (q : Nat → List Int) :
    List Gate → Nat → List (Nat × Int) → List Msg → EvalOut
  | [], i, ws, sent => ⟨i, ws, sent⟩
  | g :: rest, i, ws, sent =>
    match lookupAll ws (g.deps me) with
    | none => ⟨i, ws, sent⟩
    | some vals =>
      let sent2 := sent ++ (g.send me vals).enum.map (fun p => ⟨i, p.1, p.2⟩)
      if g.rounds me ≤ (q i).length then
        runGates me q rest (i + 1)
          (ws ++ g.outWires.zip (g.compute me vals ((q i).take (g.rounds me)))) sent2
      else ⟨i, ws, sent2⟩

/-- The session's current derived evaluation. -/
def Session.evalNow (s : Session) : EvalOut :=
  runGates s.me s.q s.circuit.gates 0 s.initWires []

/-- Index of the current (first unfinished) gate; equals the number of gates
when every gate has completed. -/
def Session.pos (s : Session) : Nat := s.evalNow.pos

/-- The session's resolved wire values. -/
def Session.wiresNow (s : Session) : List (Nat × Int) := s.evalNow.wires

/-- All outbound messages the session has produced so far. -/
def Session.sentNow (s : Session) : List Msg := s.evalNow.sent

/-- Outbound messages paired with their destination: the two-party router
addresses every message to the peer (§4.3). -/
def Session.outbox (s : Session) : List (PartyId × Msg) :=
  s.sentNow.map (fun m => (s.peer, m))

/-- Collect the declared outputs; `some` exactly when every declared output
wire is resolved (§3: the Output mapping is all-or-nothing). -/
def collectOutputs (ws : List (Nat × Int)) :
    List (String × Nat) → Option (List (String × Int))
  | [] => some []
  | nw :: rest =>
    match lookupWire ws nw.2, collectOutputs ws rest with
    | some v, some out => some ((nw.1, v) :: out)
    | _, _ => none

/-- The finalized Output mapping, present exactly when every gate has completed
and every declared output wire is resolved. -/
def Session.rawOut (s : Session) : Option (List (String × Int)) :=
  if s.pos = s.circuit.gates.length then collectOutputs s.wiresNow s.circuit.outputs
  else none

/-- The session state machine's current state (§4.2). -/
def Session.status (s : Session) : Status :=
  if s.fault.isSome then .aborted
  else if s.rawOut.isSome then .completed
  else .running

/-- Pure counterpart of `output()`: `none` while the session is still running,
`some (.ok out)` once `Completed`, `some (.error f)` once `Aborted`. -/
def Session.outputNow (s : Session) : Option (Except Fault (List (String × Int))) :=
  match s.fault with
  | some f => some (.error f)
  | none => s.rawOut.map Except.ok

/-- Sum of `f` over the indices below `n`. -/
def sumUpTo (f : Nat → Nat) : Nat → Nat
  | 0 => 0
  | n + 1 => sumUpTo f n + f n

/-- Number of messages buffered for gates not yet reached (§4.3). -/
def Session.pending (s : Session) : Nat :=
  sumUpTo (fun g => if s.pos < g then (s.q g).length else 0) s.circuit.gates.length

/-- Total number of accepted inbound messages across the circuit's gates. -/
def Session.totalQ (s : Session) : Nat :=
  sumUpTo (fun g => (s.q g).length) s.circuit.gates.length

/-- The input-wire owners declared in the circuit. -/
def owners (c : Circuit) : List PartyId := (c.inputs.map (fun t => t.1)).dedup

/-- Resolve a party's declared input wires from its private-input record;
`some` exactly when every declared input name has an entry. -/
def resolveInputs (priv : List (String × Int)) :
    List (PartyId × String × Nat) → Option (List (Nat × Int))
  | [] => some []
  | t :: rest =>
    match lookupEntry priv t.2.1, resolveInputs priv rest with
    | some v, some ws => some ((t.2.2, v) :: ws)
    | _, _ => none

/-- Modelled from the spec: the missing engine's `join` (§4.1). It validates
the party id against the declared input-wire owners (`UnknownParty`), requires
an entry in the private input for every declared input wire of that party
(`MissingInput`), and on success returns the session with its own input wires
resolved — both failures are decided synchronously, before any message exists
to send. -/
def join (c : Circuit) (maxB : Nat) (pid : PartyId) (priv : List (String × Int)) :
    Except JoinError Session :=
  if pid ∈ owners c then
    match resolveInputs priv (c.inputs.filter (fun t => t.1 == pid)) with
    | some ws =>
      .ok { circuit := c, maxBuffered := maxB, me := pid,
            peer := ((owners c).filter (fun p => p ≠ pid)).headD pid,
            initWires := ws, q := fun _ => [], fault := none }
    | none => .error .MissingInput
  else .error .UnknownParty

/-- Modelled from the spec: the missing engine's `Session.handleMessage`
(§4.2, §4.3, §7). A terminal session rejects everything with `SessionClosed`;
a message from the wrong party, for a gate already passed or out of range, or
whose round index is not the next expected one for its gate, is discarded with
`UnexpectedMessage`; a message for a gate not yet reached that would exceed the
buffered-message bound aborts the session with `BufferOverflow`; otherwise the
payload is appended to its gate's accepted stream. -/
def handleMessage (s : Session) (sender : PartyId) (m : Msg) :
    Except MsgError Session :=
  if s.fault.isSome then .error .SessionClosed
  else if s.rawOut.isSome then .error .SessionClosed
  else if sender ≠ s.peer then .error .UnexpectedMessage
  else if m.gate < s.pos ∨ s.circuit.gates.length ≤ m.gate then .error .UnexpectedMessage
  else if m.round ≠ (s.q m.gate).length then .error .UnexpectedMessage
  else if s.pos < m.gate ∧ s.maxBuffered ≤ s.pending then
    .ok { s with fault := some .BufferOverflow }
  else
    .ok { s with q := fun g => if g = m.gate then s.q g ++ [m.data] else s.q g }

/-- Deliver one message, keeping the old state when `handleMessage` rejects it
(the caller's session object is unchanged on error). -/
def deliver (s : Session) (sender : PartyId) (m : Msg) : Session :=
  match handleMessage s sender m with
  | .ok s2 => s2
  | .error _ => s

/-- Deliver a list of (sender, message) pairs in order. -/
def deliverAll (s : Session) (l : List (PartyId × Msg)) : Session :=
  l.foldl (fun t pm => deliver t pm.1 pm.2) s

/-- The per-gate projection of a delivery list: the (round, payload) pairs of
the messages addressed to gate `g`, in arrival order. -/
def proj (g : Nat) (l : List (PartyId × Msg)) : List (Nat × Int) :=
  (l.filter (fun pm => pm.2.gate == g)).map (fun pm => (pm.2.round, pm.2.data))

/-- The payloads a gate's stream accepts: scanning the (round, payload) pairs
in arrival order, a pair is accepted exactly when its round index is the next
expected one. -/
def tagAccept : List (Nat × Int) → Nat → List Int
  | [], _ => []
  | (r, d) :: rest, k => if r = k then d :: tagAccept rest (k + 1) else tagAccept rest k

/-- One list is an initial segment of another. -/
def PrefixOf (xs ys : List Int) : Prop := ∃ t, xs ++ t = ys

/-- The acceptance invariant of a session reached by delivering `l` from a
fresh join: no fault; gates outside the circuit have empty streams; every
gate's stream is the tag scan of its projection of `l`, except that a gate
already passed may have stopped accepting at an earlier point of that scan;
and the total accepted count is bounded by the number delivered. -/
def SessInv (s : Session) (l : List (PartyId × Msg)) : Prop :=
  s.fault = none ∧
  (∀ g, s.circuit.gates.length ≤ g → s.q g = []) ∧
  (∀ g, g < s.circuit.gates.length →
    s.q g = tagAccept (proj g l) 0 ∨
    (g < s.pos ∧ PrefixOf (s.q g) (tagAccept (proj g l) 0))) ∧
  s.totalQ ≤ l.length

/-- The comparison code: 0 when the numbers are equal, 1 when alice's number is
larger, 2 when it is smaller. -/
def cmpCode (a b : Int) : Int := if a = b then 0 else if b < a then 1 else 2

/-- Modelled from the spec: the single interactive gate of the missing compare
circuit `src/mpcf/circuits/main.ts`. Each party reads its own input wire, sends
it as its one round payload, expects one inbound round from the peer, and
resolves the `main` output wire with the comparison code of (alice's number,
bob's number). -/
def compareGate : Gate where
  deps := fun p => if p = "alice" then [0] else [1]
  outWires := [2]
  rounds := fun _ => 1
  send := fun _ vals => vals
  compute := fun p vals inbox =>
    if p = "alice" then [cmpCode (vals.headD 0) (inbox.headD 0)]
    else [cmpCode (inbox.headD 0) (vals.headD 0)]

/-- Modelled from the spec: the missing compare circuit — alice owns input `a`
on wire 0, bob owns input `b` on wire 1, and the single named output `main` is
wire 2 (§8 scenario). -/
def compareCircuit : Circuit where
  gates := [compareGate]
  inputs := [("alice", "a", 0), ("bob", "b", 1)]
  outputs := [("main", 2)]

/-- Alice's glue in `genkit.ts` (lines 92–96): the resolved `main` code is
reported as "equal" when 0, "larger" when 1, and "smaller" otherwise. -/
def aliceResult (main : Int) : String :=
  if main = 0 then "equal" else if main = 1 then "larger" else "smaller"

/-- Extract the resolved `main` output code of a session, if completed. -/
def mainOf (s : Session) : Option Int :=
  match s.outputNow with
  | some (.ok out) => lookupEntry out "main"
  | _ => none

/-- Run the §8 scenario: alice joins the compare circuit with `a`, bob with
`b` (as the Bob host does with its secret 42), each party's initial outbound
messages are delivered to the other, and both resolved `main` codes are
returned. -/
def runCompare (a b : Int) : Option Int × Option Int :=
  match join compareCircuit 100 "alice" [("a", a)],
        join compareCircuit 100 "bob" [("b", b)] with
  | .ok sa, .ok sb =>
    let sa2 := deliverAll sa (sb.sentNow.map (fun m => ("bob", m)))
    let sb2 := deliverAll sb (sa.sentNow.map (fun m => ("alice", m)))
    (mainOf sa2, mainOf sb2)
  | _, _ => (none, none)

/-- A relay gate used in concrete runs: no local wire reads, one inbound
round, and it resolves its output wire with the received payload. -/
def relayGate (w : Nat) : Gate where
  deps := fun _ => []
  outWires := [w]
  rounds := fun _ => 1
  send := fun _ _ => []
  compute := fun _ _ inbox => [inbox.headD 0]

/-- A circuit with two independent one-round gates, used in concrete runs. -/
def twoGateCircuit : Circuit where
  gates := [relayGate 10, relayGate 11]
  inputs := [("alice", "a", 0), ("bob", "b", 1)]
  outputs := [("o0", 10), ("o1", 11)]

/-- Bob's fresh session on the two-gate circuit with a zero buffered-message
bound (exactly what `join twoGateCircuit 0 "bob" [("b", 0)]` returns). -/
def bobTight : Session :=
  { circuit := twoGateCircuit, maxBuffered := 0, me := "bob", peer := "alice",
    initWires := [(1, 0)], q := fun _ => [], fault := none }

/-- The same session after a buffer-overflow abort. -/
def bobFailed : Session := { bobTight with fault := some .BufferOverflow }

/-- Bob's fresh session on the two-gate circuit with room to buffer (exactly
what `join twoGateCircuit 5 "bob" [("b", 0)]` returns). -/
def bobRoomy : Session := { bobTight with maxBuffered := 5 }

/-- Alice's fresh compare-circuit session with `a = 42` (exactly what
`join compareCircuit 100 "alice" [("a", 42)]` returns). -/
def aliceFresh : Session :=
  { circuit := compareCircuit, maxBuffered := 100, me := "alice", peer := "bob",
    initWires := [(0, 42)], q := fun _ => [], fault := none }

/-- Alice's compare-circuit session after bob's single message: completed. -/
def aliceDone : Session := deliver aliceFresh "bob" ⟨0, 0, 42⟩

/-- The Bob host's session: `genkit.ts` joins the compare circuit as "bob"
with its secret number 42 (exactly what `join compareCircuit 100 "bob"
[("b", 42)]` returns). -/
def bobHost : Session :=
  { circuit := compareCircuit, maxBuffered := 100, me := "bob", peer := "alice",
    initWires := [(1, 42)], q := fun _ => [], fault := none }

/-- A session's status is `running` exactly when it has no fault and no
finalized output. -/
theorem status_running_iff (s : Session) :
    s.status = .running ↔ s.fault = none ∧ s.rawOut = none := by
  unfold Session.status
  cases hf : s.fault <;> cases hr : s.rawOut <;> simp

/-- On a running session, `handleMessage` reduces to its validation chain. -/
theorem handleMessage_running (s : Session) (sender : PartyId) (m : Msg)
    (hf : s.fault = none) (hr : s.rawOut = none) :
    handleMessage s sender m =
      if sender ≠ s.peer then .error .UnexpectedMessage
      else if m.gate < s.pos ∨ s.circuit.gates.length ≤ m.gate then
        .error .UnexpectedMessage
      else if m.round ≠ (s.q m.gate).length then .error .UnexpectedMessage
      else if s.pos < m.gate ∧ s.maxBuffered ≤ s.pending then
        .ok { s with fault := some .BufferOverflow }
      else
        .ok { s with q := fun g => if g = m.gate then s.q g ++ [m.data] else s.q g } := by
  simp [handleMessage, hf, hr]

/-- A terminal session (fault recorded or output finalized) rejects every
message with `SessionClosed`. -/
theorem handleMessage_closed (s : Session) (sender : PartyId) (m : Msg)
    (h : s.fault.isSome ∨ s.rawOut.isSome) :
    handleMessage s sender m = .error .SessionClosed := by
  rcases h with h | h
  · simp [handleMessage, h]
  · cases hf : s.fault.isSome <;> simp [handleMessage, hf, h]

/-- A terminal session is left untouched by any further deliveries. -/
theorem deliverAll_closed (s : Session) (h : s.fault.isSome ∨ s.rawOut.isSome)
    (l : List (PartyId × Msg)) : deliverAll s l = s := by
  induction l with
  | nil => rfl
  | cons pm rest ih =>
    have hstep : deliver s pm.1 pm.2 = s := by
      unfold deliver
      rw [handleMessage_closed s pm.1 pm.2 h]
    calc deliverAll s (pm :: rest) = deliverAll (deliver s pm.1 pm.2) rest := rfl
      _ = deliverAll s rest := by rw [hstep]
      _ = s := ih

/-- C1: with `b = 42` and `a = 42` both parties' outputs resolve to code 0,
which alice's glue reports as "equal"; with `a = 10` both resolve to code 2,
which alice's glue reports as "smaller" (her number is smaller); and her
mapping of the resolved main code sends 0 to "equal", 1 to "larger", and any
other code to "smaller". -/
theorem compare_scenario_correct :
    runCompare 42 42 = (some 0, some 0) ∧
    (runCompare 42 42).1.map aliceResult = some "equal" ∧
    runCompare 10 42 = (some 2, some 2) ∧
    (runCompare 10 42).1.map aliceResult = some "smaller" ∧
    aliceResult 0 = "equal" ∧ aliceResult 1 = "larger" ∧
    (∀ code : Int, code ≠ 0 → code ≠ 1 → aliceResult code = "smaller") := by
  refine ⟨by decide, by decide, by decide, by decide, rfl, rfl, ?_⟩
  intro code h0 h1
  simp [aliceResult, h0, h1]

/-- Witness for `compare_scenario_correct` at the concrete code 2. -/
theorem compare_scenario_correct_witness :
    (2 : Int) ≠ 0 ∧ (2 : Int) ≠ 1 ∧ aliceResult 2 = "smaller" :=
  ⟨by decide, by decide,
    compare_scenario_correct.2.2.2.2.2.2 2 (by decide) (by decide)⟩

/-- `resolveInputs` fails exactly when some declared input wire of the list
has no entry in the private-input record. -/
theorem resolveInputs_none_iff (priv : List (String × Int))
    (l : List (PartyId × String × Nat)) :
    resolveInputs priv l = none ↔ ∃ t ∈ l, lookupEntry priv t.2.1 = none := by
  induction l with
  | nil => simp [resolveInputs]
  | cons t rest ih =>
    cases h1 : lookupEntry priv t.2.1 with
    | none => simp [resolveInputs, h1]
    | some v =>
      cases h2 : resolveInputs priv rest with
      | none =>
        rw [h2] at ih
        simp only [resolveInputs, h1, h2]
        simp only [List.mem_cons]
        constructor
        · intro _
          obtain ⟨t2, ht2, hn⟩ := ih.mp rfl
          exact ⟨t2, Or.inr ht2, hn⟩
        · intro _; trivial
      | some ws =>
        rw [h2] at ih
        simp only [resolveInputs, h1, h2]
        simp only [List.mem_cons]
        constructor
        · intro h; exact absurd h (by simp)
        · rintro ⟨t2, ht2, hn⟩
          rcases ht2 with rfl | ht2
          · rw [h1] at hn; exact absurd hn (by simp)
          · exact absurd (ih.mpr ⟨t2, ht2, hn⟩) (by simp)

/-- C5: `join` fails with `UnknownParty` exactly when the party id is not a
declared input-wire owner; it fails with `MissingInput` exactly when the party
is known but some of its declared input wires has no entry in the private
input; both failures are decided by these conditions alone (no session is
created, so nothing can be sent); on success the session is bound to this
circuit and party, carries no fault, and has consumed no messages. -/
theorem join_validation (c : Circuit) (maxB : Nat) (pid : PartyId)
    (priv : List (String × Int)) :
    (join c maxB pid priv = .error .UnknownParty ↔ pid ∉ owners c) ∧
    (join c maxB pid priv = .error .MissingInput ↔
      pid ∈ owners c ∧
      ∃ t ∈ c.inputs.filter (fun t => t.1 == pid), lookupEntry priv t.2.1 = none) ∧
    (∀ s, join c maxB pid priv = .ok s →
      s.circuit = c ∧ s.me = pid ∧ s.maxBuffered = maxB ∧ s.fault = none ∧
      ∀ g, s.q g = []) := by
  by_cases hmem : pid ∈ owners c
  · cases hres : resolveInputs priv (c.inputs.filter (fun t => t.1 == pid)) with
    | none =>
      refine ⟨?_, ?_, ?_⟩
      · simp [join, hmem, hres]
      · constructor
        · intro _
          exact ⟨hmem, (resolveInputs_none_iff priv _).mp hres⟩
        · intro _
          simp [join, hmem, hres]
      · intro s hs
        simp [join, hmem, hres] at hs
    | some ws =>
      refine ⟨?_, ?_, ?_⟩
      · simp [join, hmem, hres]
      · constructor
        · intro h
          exact absurd h (by simp [join, hmem, hres])
        · rintro ⟨-, hex⟩
          exact absurd ((resolveInputs_none_iff priv _).mpr hex) (by simp [hres])
      · intro s hs
        simp only [join, if_pos hmem, hres] at hs
        cases hs
        exact ⟨rfl, rfl, rfl, rfl, fun g => rfl⟩
  · refine ⟨?_, ?_, ?_⟩
    · simp [join, hmem]
    · simp [join, hmem]
    · intro s hs
      simp [join, hmem] at hs

/-- Witness for `join_validation`: on the compare circuit, "carol" is rejected
as unknown, "alice" without an entry for `a` is rejected as missing input, and
"alice" with `a = 7` joins with no fault and an empty message state. -/
theorem join_validation_witness :
    join compareCircuit 100 "carol" [] = .error .UnknownParty ∧
    join compareCircuit 100 "alice" [("b", 1)] = .error .MissingInput ∧
    ∀ s, join compareCircuit 100 "alice" [("a", 7)] = .ok s →
      s.me = "alice" ∧ s.fault = none :=
  ⟨(join_validation compareCircuit 100 "carol" []).1.mpr (by decide),
   (join_validation compareCircuit 100 "alice" [("b", 1)]).2.1.mpr
     ⟨by decide, ("alice", "a", 0), by decide, by decide⟩,
   fun s hs =>
     ⟨((join_validation compareCircuit 100 "alice" [("a", 7)]).2.2 s hs).2.1,
      ((join_validation compareCircuit 100 "alice" [("a", 7)]).2.2 s hs).2.2.2.1⟩⟩

/-- C6: on a running session, a message from the wrong party, or for a gate
not currently awaiting input — a gate already passed, a gate outside the
circuit, or a round index other than the next expected one for its gate (which
covers duplicates of already-consumed messages) — fails with
`UnexpectedMessage`; the message is discarded, the session state (hence every
already-resolved wire value) is unchanged, and the session remains running. -/
theorem unexpected_message_discarded (s : Session) (sender : PartyId) (m : Msg)
    (hrun : s.status = .running)
    (hbad : sender ≠ s.peer ∨ m.gate < s.pos ∨ s.circuit.gates.length ≤ m.gate ∨
      m.round ≠ (s.q m.gate).length) :
    handleMessage s sender m = .error .UnexpectedMessage ∧
    deliver s sender m = s ∧ (deliver s sender m).status = .running ∧
    (deliver s sender m).wiresNow = s.wiresNow := by
  obtain ⟨hf, hr⟩ := (status_running_iff s).mp hrun
  have herr : handleMessage s sender m = .error .UnexpectedMessage := by
    rw [handleMessage_running s sender m hf hr]
    by_cases h1 : sender ≠ s.peer
    · rw [if_pos h1]
    · rw [if_neg h1]
      by_cases h2 : m.gate < s.pos ∨ s.circuit.gates.length ≤ m.gate
      · rw [if_pos h2]
      · rw [if_neg h2]
        have h3 : m.round ≠ (s.q m.gate).length := by tauto
        rw [if_pos h3]
  have hdel : deliver s sender m = s := by
    unfold deliver; rw [herr]
  exact ⟨herr, hdel, by rw [hdel]; exact hrun, by rw [hdel]⟩

/-- Witness for `unexpected_message_discarded`: the fresh two-gate session is
running and discards a message from the unexpected party "carol". -/
theorem unexpected_message_discarded_witness :
    bobTight.status = .running ∧
    handleMessage bobTight "carol" ⟨0, 0, 7⟩ = .error .UnexpectedMessage :=
  ⟨by decide,
   (unexpected_message_discarded bobTight "carol" ⟨0, 0, 7⟩ (by decide)
     (Or.inl (by decide))).1⟩

/-- C7: on a running session, an otherwise-acceptable message for a gate not
yet reached, arriving when the buffered-message count has reached the
configured bound, deterministically aborts the session with `BufferOverflow`:
the result is the aborted session (not a silent drop), its status is
`aborted`, its fault is `BufferOverflow`, and the message streams are left as
they were. -/
theorem buffer_overflow_aborts (s : Session) (sender : PartyId) (m : Msg)
    (hrun : s.status = .running) (hpeer : sender = s.peer)
    (hgate : s.pos < m.gate) (hlt : m.gate < s.circuit.gates.length)
    (hround : m.round = (s.q m.gate).length)
    (hfull : s.maxBuffered ≤ s.pending) :
    handleMessage s sender m = .ok { s with fault := some .BufferOverflow } ∧
    (deliver s sender m).status = .aborted ∧
    (deliver s sender m).fault = some .BufferOverflow ∧
    (deliver s sender m).q = s.q := by
  obtain ⟨hf, hr⟩ := (status_running_iff s).mp hrun
  have hok : handleMessage s sender m = .ok { s with fault := some .BufferOverflow } := by
    rw [handleMessage_running s sender m hf hr]
    rw [if_neg (by simp [hpeer])]
    rw [if_neg (by omega)]
    rw [if_neg (by simp [hround])]
    rw [if_pos ⟨hgate, hfull⟩]
  have hdel : deliver s sender m = { s with fault := some .BufferOverflow } := by
    unfold deliver; rw [hok]
  refine ⟨hok, ?_, ?_, ?_⟩
  · rw [hdel]; simp [Session.status]
  · rw [hdel]
  · rw [hdel]

/-- Witness for `buffer_overflow_aborts`: the fresh two-gate session with a
zero bound aborts on a message for the not-yet-reached gate 1. -/
theorem buffer_overflow_aborts_witness :
    bobTight.status = .running ∧ bobTight.pos < 1 ∧
    handleMessage bobTight "alice" ⟨1, 0, 5⟩ =
      .ok { bobTight with fault := some .BufferOverflow } :=
  ⟨by decide, by decide,
   (buffer_overflow_aborts bobTight "alice" ⟨1, 0, 5⟩ (by decide) (by decide)
     (by decide) (by decide) (by decide) (by decide)).1⟩

/-- C9: once a session is aborted, every `handleMessage` call fails with
`SessionClosed`, and no sequence of further deliveries changes the session at
all — its last valid state (in particular every already-resolved wire value)
stays as it was, inspectable through the unchanged session. -/
theorem aborted_session_frozen (s : Session) (f : Fault) (h : s.fault = some f) :
    (∀ sender m, handleMessage s sender m = .error .SessionClosed) ∧
    (∀ l, deliverAll s l = s) ∧
    (∀ l, (deliverAll s l).wiresNow = s.wiresNow) ∧
    s.status = .aborted := by
  have hs : s.fault.isSome ∨ s.rawOut.isSome := Or.inl (by simp [h])
  refine ⟨fun sender m => handleMessage_closed s sender m hs,
    fun l => deliverAll_closed s hs l,
    fun l => by rw [deliverAll_closed s hs l],
    by simp [Session.status, h]⟩

/-- Witness for `aborted_session_frozen` on the concretely aborted two-gate
session. -/
theorem aborted_session_frozen_witness :
    handleMessage bobFailed "alice" ⟨0, 0, 3⟩ = .error .SessionClosed ∧
    deliverAll bobFailed [("alice", ⟨0, 0, 3⟩), ("alice", ⟨1, 0, 4⟩)] = bobFailed :=
  ⟨(aborted_session_frozen bobFailed .BufferOverflow rfl).1 "alice" ⟨0, 0, 3⟩,
   (aborted_session_frozen bobFailed .BufferOverflow rfl).2.1
     [("alice", ⟨0, 0, 3⟩), ("alice", ⟨1, 0, 4⟩)]⟩

/-- A successfully collected output covers every declared output wire. -/
theorem collectOutputs_complete (ws : List (Nat × Int)) :
    ∀ (l : List (String × Nat)) (out : List (String × Int)),
    collectOutputs ws l = some out →
    out.length = l.length ∧
    ∀ nw ∈ l, ∃ v, lookupWire ws nw.2 = some v ∧ (nw.1, v) ∈ out := by
  intro l
  induction l with
  | nil =>
    intro out h
    simp only [collectOutputs, Option.some.injEq] at h
    subst h
    simp
  | cons nw rest ih =>
    intro out h
    simp only [collectOutputs] at h
    cases h1 : lookupWire ws nw.2 with
    | none => rw [h1] at h; simp at h
    | some v =>
      rw [h1] at h
      cases h2 : collectOutputs ws rest with
      | none => rw [h2] at h; simp at h
      | some o2 =>
        rw [h2] at h
        simp only [Option.some.injEq] at h
        subst h
        obtain ⟨hlen, hall⟩ := ih o2 h2
        refine ⟨by simp [hlen], ?_⟩
        intro nw2 hmem
        rcases List.mem_cons.mp hmem with rfl | hmem2
        · exact ⟨v, h1, List.mem_cons_self _ _⟩
        · obtain ⟨v2, hv2, hin⟩ := hall nw2 hmem2
          exact ⟨v2, hv2, List.mem_cons_of_mem _ hin⟩

/-- An output exposed through `outputNow` comes from a finalized `rawOut`. -/
theorem outputNow_ok_rawOut (s : Session) (out : List (String × Int))
    (hout : s.outputNow = some (.ok out)) :
    s.fault = none ∧ s.rawOut = some out := by
  unfold Session.outputNow at hout
  cases hf : s.fault with
  | some f => rw [hf] at hout; simp at hout
  | none =>
    rw [hf] at hout
    refine ⟨rfl, ?_⟩
    cases hr : s.rawOut with
    | none => rw [hr] at hout; simp at hout
    | some o2 => rw [hr] at hout; simpa using hout

/-- C3: whenever a session exposes an Output mapping, that mapping is entirely
populated: it has one entry per declared output wire, and every declared
output wire is resolved with its value present in the mapping — exposed
outputs are never partial. -/
theorem output_all_or_nothing (s : Session) (out : List (String × Int))
    (hout : s.outputNow = some (.ok out)) :
    out.length = s.circuit.outputs.length ∧
    ∀ nw ∈ s.circuit.outputs,
      ∃ v, lookupWire s.wiresNow nw.2 = some v ∧ (nw.1, v) ∈ out := by
  obtain ⟨-, hraw⟩ := outputNow_ok_rawOut s out hout
  unfold Session.rawOut at hraw
  by_cases hpos : s.pos = s.circuit.gates.length
  · rw [if_pos hpos] at hraw
    exact collectOutputs_complete s.wiresNow s.circuit.outputs out hraw
  · rw [if_neg hpos] at hraw
    simp at hraw

/-- Witness for `output_all_or_nothing` on alice's completed compare session. -/
theorem output_all_or_nothing_witness :
    aliceDone.outputNow = some (.ok [("main", 0)]) ∧
    [(("main" : String), (0 : Int))].length = aliceDone.circuit.outputs.length :=
  ⟨by rfl, (output_all_or_nothing aliceDone [("main", 0)] (by rfl)).1⟩

/-- C4: `outputNow` (the pure counterpart of `output()`) yields an Output
value only once the session is `Completed` — never before — and once it does,
every later observation, after any further deliveries, returns the identical
value (single-resolution law). -/
theorem output_single_resolution_law (s : Session) :
    (∀ v, s.outputNow = some (.ok v) → s.status = .completed ∧
      ∀ l, (deliverAll s l).outputNow = some (.ok v)) ∧
    (s.status ≠ .completed → ∀ v, s.outputNow ≠ some (.ok v)) := by
  have main : ∀ v, s.outputNow = some (.ok v) → s.status = .completed ∧
      ∀ l, (deliverAll s l).outputNow = some (.ok v) := by
    intro v hout
    obtain ⟨hf, hraw⟩ := outputNow_ok_rawOut s v hout
    constructor
    · simp [Session.status, hf, hraw]
    · intro l
      rw [deliverAll_closed s (Or.inr (by simp [hraw])) l]
      exact hout
  exact ⟨main, fun hne v hout => hne (main v hout).1⟩

/-- Witness for `output_single_resolution_law` on alice's completed compare
session, re-observed after two further (rejected) deliveries. -/
theorem output_single_resolution_law_witness :
    aliceDone.status = .completed ∧
    (deliverAll aliceDone [("bob", ⟨0, 0, 9⟩), ("bob", ⟨0, 1, 9⟩)]).outputNow =
      some (.ok [("main", 0)]) :=
  ⟨((output_single_resolution_law aliceDone).1 [("main", 0)] (by rfl)).1,
   ((output_single_resolution_law aliceDone).1 [("main", 0)] (by rfl)).2
     [("bob", ⟨0, 0, 9⟩), ("bob", ⟨0, 1, 9⟩)]⟩

/-- Every successful `handleMessage` starts from a running session and either
records the buffer-overflow fault or appends the payload to its gate's
accepted stream. -/
theorem handleMessage_ok_cases (s : Session) (sender : PartyId) (m : Msg)
    (s2 : Session) (h : handleMessage s sender m = .ok s2) :
    s.fault = none ∧ s.rawOut = none ∧
    (s2 = { s with fault := some .BufferOverflow } ∨
     s2 = { s with q := fun g => if g = m.gate then s.q g ++ [m.data] else s.q g }) := by
  unfold handleMessage at h
  by_cases h1 : s.fault.isSome
  · rw [if_pos h1] at h; exact absurd h (by simp)
  · rw [if_neg h1] at h
    by_cases h2 : s.rawOut.isSome
    · rw [if_pos h2] at h; exact absurd h (by simp)
    · rw [if_neg h2] at h
      refine ⟨by simpa using h1, by simpa using h2, ?_⟩
      by_cases h3 : sender ≠ s.peer
      · rw [if_pos h3] at h; exact absurd h (by simp)
      · rw [if_neg h3] at h
        by_cases h4 : m.gate < s.pos ∨ s.circuit.gates.length ≤ m.gate
        · rw [if_pos h4] at h; exact absurd h (by simp)
        · rw [if_neg h4] at h
          by_cases h5 : m.round ≠ (s.q m.gate).length
          · rw [if_pos h5] at h; exact absurd h (by simp)
          · rw [if_neg h5] at h
            by_cases h6 : s.pos < m.gate ∧ s.maxBuffered ≤ s.pending
            · rw [if_pos h6] at h
              exact Or.inl (by simpa using h.symm)
            · rw [if_neg h6] at h
              exact Or.inr (by simpa using h.symm)

/-- One delivery preserves the invariant that a faulted session has no
finalized output. -/
theorem deliver_fault_inv (s : Session) (sender : PartyId) (m : Msg)
    (h : s.fault.isSome → s.rawOut = none) :
    (deliver s sender m).fault.isSome → (deliver s sender m).rawOut = none := by
  unfold deliver
  cases hm : handleMessage s sender m with
  | error e => exact h
  | ok s2 =>
    obtain ⟨hf, hr, hcase⟩ := handleMessage_ok_cases s sender m s2 hm
    rcases hcase with rfl | rfl
    · intro _
      have : ({ s with fault := some Fault.BufferOverflow } : Session).rawOut
          = s.rawOut := rfl
      rw [this]
      simpa using hr
    · intro habs
      have : ({ s with q := fun g => if g = m.gate then s.q g ++ [m.data] else s.q g }
          : Session).fault = s.fault := rfl
      rw [this, hf] at habs
      simp at habs

/-- Any run preserves the invariant that a faulted session has no finalized
output. -/
theorem deliverAll_fault_inv (s : Session) (l : List (PartyId × Msg))
    (h : s.fault.isSome → s.rawOut = none) :
    (deliverAll s l).fault.isSome → (deliverAll s l).rawOut = none := by
  induction l generalizing s with
  | nil => exact h
  | cons pm rest ih =>
    exact ih (deliver s pm.1 pm.2) (deliver_fault_inv s pm.1 pm.2 h)

/-- A session is terminal exactly when `outputNow` has resolved. -/
theorem status_terminal_iff (s : Session) :
    (s.status = .aborted ∨ s.status = .completed) ↔ s.outputNow.isSome := by
  unfold Session.status Session.outputNow
  cases hf : s.fault <;> cases hr : s.rawOut <;> simp

/-- C2: for every session reachable from a `join`, there is exactly one
terminal resolution: the session never has both a fault and a finalized
Output, its `outputNow` is resolved exactly when it is terminal (`Aborted` or
`Completed`), and once resolved the surfaced resolution never changes under
further deliveries. -/
theorem single_terminal_resolution (c : Circuit) (maxB : Nat) (pid : PartyId)
    (priv : List (String × Int)) (s0 : Session)
    (hjoin : join c maxB pid priv = .ok s0) (l : List (PartyId × Msg)) :
    ¬((deliverAll s0 l).fault.isSome ∧ ((deliverAll s0 l).rawOut).isSome) ∧
    (((deliverAll s0 l).status = .aborted ∨ (deliverAll s0 l).status = .completed) ↔
      ((deliverAll s0 l).outputNow).isSome) ∧
    (∀ r l2, (deliverAll s0 l).outputNow = some r →
      (deliverAll (deliverAll s0 l) l2).outputNow = some r) := by
  have hf0 : s0.fault = none :=
    ((join_validation c maxB pid priv).2.2 s0 hjoin).2.2.2.1
  refine ⟨?_, status_terminal_iff _, ?_⟩
  · rintro ⟨hfault, hraw⟩
    have := deliverAll_fault_inv s0 l (by intro h; rw [hf0] at h; simp at h) hfault
    rw [this] at hraw
    simp at hraw
  · intro r l2 hout
    have hterm : (deliverAll s0 l).fault.isSome ∨ ((deliverAll s0 l).rawOut).isSome := by
      unfold Session.outputNow at hout
      cases hf : (deliverAll s0 l).fault with
      | some f => exact Or.inl (by simp [hf])
      | none =>
        rw [hf] at hout
        cases hr : (deliverAll s0 l).rawOut with
        | none => rw [hr] at hout; simp at hout
        | some o2 => exact Or.inr (by simp [hr])
    rw [deliverAll_closed _ hterm l2]
    exact hout

/-- Witness for `single_terminal_resolution`: alice's compare session after
bob's message has resolved to the completed output, and keeps it after two
further deliveries. -/
theorem single_terminal_resolution_witness :
    (deliverAll aliceFresh [("bob", ⟨0, 0, 42⟩)]).outputNow.isSome ∧
    (deliverAll (deliverAll aliceFresh [("bob", ⟨0, 0, 42⟩)])
      [("bob", ⟨0, 1, 7⟩)]).outputNow = some (.ok [("main", 0)]) :=
  ⟨((single_terminal_resolution compareCircuit 100 "alice" [("a", 42)]
      aliceFresh (by rfl) [("bob", ⟨0, 0, 42⟩)]).2.1).mp (Or.inr (by rfl)),
   (single_terminal_resolution compareCircuit 100 "alice" [("a", 42)]
      aliceFresh (by rfl) [("bob", ⟨0, 0, 42⟩)]).2.2 (.ok [("main", 0)])
      [("bob", ⟨0, 1, 7⟩)] (by rfl)⟩

/-- Splitting a tag scan at an append point. -/
theorem tagAccept_append (xs ys : List (Nat × Int)) (k : Nat) :
    tagAccept (xs ++ ys) k =
      tagAccept xs k ++ tagAccept ys (k + (tagAccept xs k).length) := by
  induction xs generalizing k with
  | nil => simp [tagAccept]
  | cons p rest ih =>
    obtain ⟨r, d⟩ := p
    by_cases h : r = k
    · simp only [List.cons_append, tagAccept, if_pos h, List.length_cons]
      have harg : k + ((tagAccept rest (k + 1)).length + 1) =
          (k + 1) + (tagAccept rest (k + 1)).length := by omega
      rw [harg]
      exact congrArg (d :: ·) (ih (k + 1))
    · simp only [List.cons_append, tagAccept, if_neg h]
      exact ih k

/-- Appending one message to a stream extends its tag scan by the payload
exactly when the round index is the next expected one. -/
theorem tagAccept_snoc (xs : List (Nat × Int)) (r : Nat) (d : Int) (k : Nat) :
    tagAccept (xs ++ [(r, d)]) k =
      tagAccept xs k ++ (if r = k + (tagAccept xs k).length then [d] else []) := by
  rw [tagAccept_append]
  by_cases h : r = k + (tagAccept xs k).length <;> simp [tagAccept, h]

/-- Every list is an initial segment of itself. -/
theorem prefixOf_refl (xs : List Int) : PrefixOf xs xs := ⟨[], by simp⟩

/-- An initial segment of `ys` is an initial segment of any extension of
`ys`. -/
theorem prefixOf_append_right (xs ys zs : List Int) (h : PrefixOf xs ys) :
    PrefixOf xs (ys ++ zs) := by
  obtain ⟨t, rfl⟩ := h
  exact ⟨t ++ zs, by simp⟩

/-- Initial segments are no longer than the whole. -/
theorem prefixOf_length_le (xs ys : List Int) (h : PrefixOf xs ys) :
    xs.length ≤ ys.length := by
  obtain ⟨t, rfl⟩ := h
  simp

/-- Short takes agree between a list and its initial segments. -/
theorem prefixOf_take_eq (xs ys : List Int) (h : PrefixOf xs ys) (n : Nat)
    (hn : n ≤ xs.length) : ys.take n = xs.take n := by
  obtain ⟨t, rfl⟩ := h
  exact List.take_append_of_le_length hn

/-- Projections ignore messages addressed to other gates. -/
theorem proj_snoc_ne (g : Nat) (l : List (PartyId × Msg)) (pm : PartyId × Msg)
    (h : pm.2.gate ≠ g) : proj g (l ++ [pm]) = proj g l := by
  simp [proj, List.filter_append, h]

/-- A message addressed to gate `g` appends its (round, payload) pair to the
gate's projection. -/
theorem proj_snoc_eq (g : Nat) (l : List (PartyId × Msg)) (pm : PartyId × Msg)
    (h : pm.2.gate = g) :
    proj g (l ++ [pm]) = proj g l ++ [(pm.2.round, pm.2.data)] := by
  simp [proj, List.filter_append, h]

/-- Bounded sums respect pointwise bounds. -/
theorem sumUpTo_le_sumUpTo (f f2 : Nat → Nat) (n : Nat)
    (h : ∀ g, g < n → f g ≤ f2 g) : sumUpTo f n ≤ sumUpTo f2 n := by
  induction n with
  | zero => exact Nat.le_refl 0
  | succ n ih =>
    have h1 := ih (fun g hg => h g (Nat.lt_succ_of_lt hg))
    have h2 := h n (Nat.lt_succ_self n)
    simp only [sumUpTo]
    omega

/-- Bounded sums only look at the summands below the bound. -/
theorem sumUpTo_congr (f f2 : Nat → Nat) (n : Nat) (h : ∀ g, g < n → f2 g = f g) :
    sumUpTo f2 n = sumUpTo f n := by
  induction n with
  | zero => rfl
  | succ n ih =>
    simp only [sumUpTo]
    rw [ih (fun g hg => h g (Nat.lt_succ_of_lt hg)), h n (Nat.lt_succ_self n)]

/-- Incrementing one summand below the bound increments the bounded sum. -/
theorem sumUpTo_bump (f f2 : Nat → Nat) (n g0 : Nat) (hg : g0 < n)
    (heq : ∀ g, g ≠ g0 → f2 g = f g) (hbump : f2 g0 = f g0 + 1) :
    sumUpTo f2 n = sumUpTo f n + 1 := by
  induction n with
  | zero => omega
  | succ n ih =>
    simp only [sumUpTo]
    by_cases h : g0 = n
    · subst h
      rw [sumUpTo_congr f f2 g0 (fun g hg2 => heq g (by omega))]
      omega
    · rw [ih (by omega), heq n (fun hh => h hh.symm)]
      omega

/-- Evaluation never moves the gate position backwards. -/
theorem runGates_pos_ge (me : PartyId) (q : Nat → List Int) (gates : List Gate) :
    ∀ (i : Nat) (ws : List (Nat × Int)) (sent : List Msg),
    i ≤ (runGates me q gates i ws sent).pos := by
  induction gates with
  | nil => intro i ws sent; exact Nat.le_refl i
  | cons g rest ih =>
    intro i ws sent
    simp only [runGates]
    cases hda : lookupAll ws (g.deps me) with
    | none => exact Nat.le_refl i
    | some vals =>
      by_cases h : g.rounds me ≤ (q i).length
      · simp only [if_pos h]
        exact Nat.le_of_succ_le (ih (i + 1) _ _)
      · simp only [if_neg h]
        exact Nat.le_refl i

/-- Every gate strictly before the evaluation position has received at least
its expected number of inbound rounds. -/
theorem runGates_passed_saturated (me : PartyId) (q : Nat → List Int)
    (gates : List Gate) : ∀ (i : Nat) (ws : List (Nat × Int)) (sent : List Msg)
    (g : Nat), i ≤ g → g < (runGates me q gates i ws sent).pos →
    ∀ gt, gates[g - i]? = some gt → gt.rounds me ≤ (q g).length := by
  induction gates with
  | nil =>
    intro i ws sent g hig hlt gt hgt
    simp only [runGates] at hlt
    omega
  | cons gg rest ih =>
    intro i ws sent g hig hlt gt hgt
    simp only [runGates] at hlt
    cases hda : lookupAll ws (gg.deps me) with
    | none => simp only [hda] at hlt; omega
    | some vals =>
      simp only [hda] at hlt
      by_cases h : gg.rounds me ≤ (q i).length
      · rw [if_pos h] at hlt
        by_cases hgi : g = i
        · subst hgi
          rw [Nat.sub_self] at hgt
          simp only [List.getElem?_cons_zero, Option.some.injEq] at hgt
          rw [← hgt]
          exact h
        · have hidx : rest[g - (i + 1)]? = some gt := by
            have hstep : g - i = (g - (i + 1)) + 1 := by omega
            rw [hstep] at hgt
            simpa using hgt
          exact ih (i + 1) _ _ g (by omega) hlt gt hidx
      · rw [if_neg h] at hlt
        simp at hlt
        omega

/-- Extending the accepted streams can only move the evaluation position
forward. -/
theorem runGates_pos_mono (me : PartyId) (q q2 : Nat → List Int)
    (hq : ∀ g, PrefixOf (q g) (q2 g)) (gates : List Gate) :
    ∀ (i : Nat) (ws : List (Nat × Int)) (sent sent2 : List Msg),
    (runGates me q gates i ws sent).pos ≤ (runGates me q2 gates i ws sent2).pos := by
  induction gates with
  | nil => intro i ws sent sent2; exact Nat.le_refl i
  | cons g rest ih =>
    intro i ws sent sent2
    cases hda : lookupAll ws (g.deps me) with
    | none =>
      have hl : (runGates me q (g :: rest) i ws sent).pos = i := by
        simp [runGates, hda]
      rw [hl]
      exact runGates_pos_ge me q2 _ i ws sent2
    | some vals =>
      by_cases h : g.rounds me ≤ (q i).length
      · have h2 : g.rounds me ≤ (q2 i).length :=
          le_trans h (prefixOf_length_le _ _ (hq i))
        have htake : (q2 i).take (g.rounds me) = (q i).take (g.rounds me) :=
          prefixOf_take_eq _ _ (hq i) _ h
        have hl : runGates me q (g :: rest) i ws sent =
            runGates me q rest (i + 1)
              (ws ++ g.outWires.zip (g.compute me vals ((q i).take (g.rounds me))))
              (sent ++ (g.send me vals).enum.map (fun p => ⟨i, p.1, p.2⟩)) := by
          simp [runGates, hda, if_pos h]
        have hr : runGates me q2 (g :: rest) i ws sent2 =
            runGates me q2 rest (i + 1)
              (ws ++ g.outWires.zip (g.compute me vals ((q i).take (g.rounds me))))
              (sent2 ++ (g.send me vals).enum.map (fun p => ⟨i, p.1, p.2⟩)) := by
          simp [runGates, hda, if_pos h2, htake]
        rw [hl, hr]
        exact ih (i + 1) _ _ _
      · have hl : (runGates me q (g :: rest) i ws sent).pos = i := by
          simp [runGates, hda, if_neg h]
        rw [hl]
        exact runGates_pos_ge me q2 _ i ws sent2

/-- Evaluation only looks at each gate's stream through its first expected
rounds and through whether that many rounds are present. -/
theorem runGates_congr (me : PartyId) (q q2 : Nat → List Int) (gates : List Gate) :
    ∀ (i : Nat) (ws : List (Nat × Int)) (sent : List Msg),
    (∀ g, i ≤ g → ∀ gt, gates[g - i]? = some gt →
      ((q g).take (gt.rounds me) = (q2 g).take (gt.rounds me) ∧
       (gt.rounds me ≤ (q g).length ↔ gt.rounds me ≤ (q2 g).length))) →
    runGates me q gates i ws sent = runGates me q2 gates i ws sent := by
  induction gates with
  | nil => intro i ws sent _; rfl
  | cons g rest ih =>
    intro i ws sent hq
    have hg0 := hq i (Nat.le_refl i) g (by rw [Nat.sub_self]; simp)
    cases hda : lookupAll ws (g.deps me) with
    | none => simp [runGates, hda]
    | some vals =>
      by_cases h : g.rounds me ≤ (q i).length
      · have h2 : g.rounds me ≤ (q2 i).length := hg0.2.mp h
        have hl : runGates me q (g :: rest) i ws sent =
            runGates me q rest (i + 1)
              (ws ++ g.outWires.zip (g.compute me vals ((q i).take (g.rounds me))))
              (sent ++ (g.send me vals).enum.map (fun p => ⟨i, p.1, p.2⟩)) := by
          simp [runGates, hda, if_pos h]
        have hr : runGates me q2 (g :: rest) i ws sent =
            runGates me q2 rest (i + 1)
              (ws ++ g.outWires.zip (g.compute me vals ((q i).take (g.rounds me))))
              (sent ++ (g.send me vals).enum.map (fun p => ⟨i, p.1, p.2⟩)) := by
          simp [runGates, hda, if_pos h2, ← hg0.1]
        rw [hl, hr]
        apply ih (i + 1) _ _
        intro g2 hig2 gt hgt
        refine hq g2 (by omega) gt ?_
        have hstep : g2 - i = (g2 - (i + 1)) + 1 := by omega
        rw [hstep]
        simpa using hgt
      · have h2 : ¬ g.rounds me ≤ (q2 i).length := fun hh => h (hg0.2.mpr hh)
        simp [runGates, hda, if_neg h, if_neg h2]

/-- Delivering a message never changes who the session's peer is. -/
theorem deliver_peer (s : Session) (sender : PartyId) (m : Msg) :
    (deliver s sender m).peer = s.peer := by
  unfold deliver
  cases hm : handleMessage s sender m with
  | error e => rfl
  | ok s2 =>
    obtain ⟨-, -, hcase⟩ := handleMessage_ok_cases s sender m s2 hm
    rcases hcase with rfl | rfl <;> rfl

/-- A whole run never changes who the session's peer is. -/
theorem deliverAll_peer (s : Session) (l : List (PartyId × Msg)) :
    (deliverAll s l).peer = s.peer := by
  induction l generalizing s with
  | nil => rfl
  | cons pm rest ih =>
    calc (deliverAll (deliver s pm.1 pm.2) rest).peer
        = (deliver s pm.1 pm.2).peer := ih _
      _ = s.peer := deliver_peer s pm.1 pm.2

/-- C10: in the Bob host, every outbound message the session joined as party
"bob" ever produces — after any sequence of deliveries — is addressed to
party "alice"; the `assert(to === "alice")` in the host's send callback can
never fire. -/
theorem bob_outbound_to_alice (s0 : Session)
    (hjoin : join compareCircuit 100 "bob" [("b", 42)] = .ok s0)
    (l : List (PartyId × Msg)) :
    ∀ x ∈ (deliverAll s0 l).outbox, x.1 = "alice" := by
  have hinj : Except.ok (ε := JoinError) bobHost = Except.ok s0 := by
    rw [← hjoin]; rfl
  have hs0 : bobHost = s0 := by
    injection hinj
  intro x hx
  obtain ⟨msg, -, rfl⟩ := List.mem_map.mp hx
  show (deliverAll s0 l).peer = "alice"
  rw [deliverAll_peer, ← hs0]
  rfl

/-- Witness for `bob_outbound_to_alice`: the freshly joined Bob host session
has a nonempty outbox whose one message is addressed to "alice". -/
theorem bob_outbound_to_alice_witness :
    bobHost.outbox = [("alice", ⟨0, 0, 42⟩)] ∧
    (("alice" : String), (⟨0, 0, 42⟩ : Msg)).1 = "alice" :=
  ⟨by rfl,
   bob_outbound_to_alice bobHost (by rfl) [] ("alice", ⟨0, 0, 42⟩)
     (by rw [show (deliverAll bobHost []).outbox = [("alice", ⟨0, 0, 42⟩)] from rfl]
         exact List.mem_singleton.mpr rfl)⟩

/-- The buffered-message count never exceeds the total accepted count. -/
theorem pending_le_totalQ (s : Session) : s.pending ≤ s.totalQ := by
  unfold Session.pending Session.totalQ
  apply sumUpTo_le_sumUpTo
  intro g _
  by_cases h : s.pos < g <;> simp [h]

/-- A finalized output implies the evaluation has passed every gate. -/
theorem rawOut_isSome_pos (s : Session) (h : s.rawOut.isSome) :
    s.pos = s.circuit.gates.length := by
  by_cases hp : s.pos = s.circuit.gates.length
  · exact hp
  · unfold Session.rawOut at h
    rw [if_neg hp] at h
    simp at h

/-- Any gate the session has passed has received its expected rounds. -/
theorem session_passed_saturated (s : Session) (g : Nat) (gt : Gate)
    (hgt : s.circuit.gates[g]? = some gt) (hg : g < s.pos) :
    gt.rounds s.me ≤ (s.q g).length :=
  runGates_passed_saturated s.me s.q s.circuit.gates 0 s.initWires [] g
    (Nat.zero_le g) hg gt (by simpa using hgt)

/-- The invariant holds for a freshly joined session. -/
theorem inv_init (s : Session) (hq : ∀ g, s.q g = []) (hf : s.fault = none) :
    SessInv s [] := by
  refine ⟨hf, fun g _ => hq g, fun g _ => Or.inl (by rw [hq g]; rfl), ?_⟩
  unfold Session.totalQ
  have hz : ∀ n, sumUpTo (fun g => (s.q g).length) n = 0 := by
    intro n
    induction n with
    | zero => rfl
    | succ n ih => simp [sumUpTo, ih, hq n]
  simp [hz]

/-- Recording a rejected message in the delivery history preserves the
invariant, provided the message was addressed to a passed gate or carried an
unexpected round index (or an out-of-range gate). -/
theorem inv_extend_unchanged (s : Session) (l : List (PartyId × Msg))
    (pm : PartyId × Msg) (hinv : SessInv s l)
    (hside : pm.2.gate < s.circuit.gates.length →
      pm.2.gate < s.pos ∨ pm.2.round ≠ (s.q pm.2.gate).length) :
    SessInv s (l ++ [pm]) := by
  obtain ⟨hf, hrange, hlive, htot⟩ := hinv
  have hlen : (l ++ [pm]).length = l.length + 1 := by simp
  refine ⟨hf, hrange, ?_, by rw [hlen]; omega⟩
  intro g hg
  by_cases hgeq : pm.2.gate = g
  · subst hgeq
    rw [proj_snoc_eq pm.2.gate l pm rfl, tagAccept_snoc]
    rcases hlive pm.2.gate hg with hqe | ⟨hp2, hpre⟩
    · rcases hside hg with hpos | hround
      · right
        refine ⟨hpos, ?_⟩
        rw [hqe]
        exact prefixOf_append_right _ _ _ (prefixOf_refl _)
      · left
        rw [if_neg (by rw [Nat.zero_add, ← congrArg List.length hqe]; exact hround),
          List.append_nil]
        exact hqe
    · right
      exact ⟨hp2, prefixOf_append_right _ _ _ hpre⟩
  · rw [proj_snoc_ne g l pm hgeq]
    exact hlive g hg

/-- One delivery from the peer, within the buffered-message bound, preserves
the acceptance invariant. -/
theorem deliver_inv_acc (s : Session) (sender : PartyId) (m : Msg)
    (l : List (PartyId × Msg)) (hinv : SessInv s l) (hsender : sender = s.peer)
    (hbound : l.length < s.maxBuffered) :
    SessInv (deliver s sender m) (l ++ [(sender, m)]) := by
  obtain ⟨hf, hrange, hlive, htot⟩ := hinv
  have hnof : ¬ s.maxBuffered ≤ s.pending := by
    have := pending_le_totalQ s
    omega
  by_cases hcomp : s.rawOut.isSome
  · have hd : deliver s sender m = s := by
      unfold deliver
      rw [handleMessage_closed s sender m (Or.inr hcomp)]
    rw [hd]
    apply inv_extend_unchanged s l (sender, m) ⟨hf, hrange, hlive, htot⟩
    intro hglt
    left
    rw [rawOut_isSome_pos s hcomp]
    exact hglt
  · have hrn : s.rawOut = none := by
      cases hr : s.rawOut
      · rfl
      · rw [hr] at hcomp; simp at hcomp
    have hH := handleMessage_running s sender m hf hrn
    rw [if_neg (by simp [hsender])] at hH
    by_cases h2 : m.gate < s.pos ∨ s.circuit.gates.length ≤ m.gate
    · rw [if_pos h2] at hH
      have hd : deliver s sender m = s := by unfold deliver; rw [hH]
      rw [hd]
      apply inv_extend_unchanged s l (sender, m) ⟨hf, hrange, hlive, htot⟩
      intro hglt
      rcases h2 with h2 | h2
      · exact Or.inl h2
      · exact absurd hglt
          (by have hgg : ((sender, m) : PartyId × Msg).2.gate = m.gate := rfl
              omega)
    · rw [if_neg h2] at hH
      push_neg at h2
      obtain ⟨hge, hlt⟩ := h2
      by_cases h3 : m.round ≠ (s.q m.gate).length
      · rw [if_pos h3] at hH
        have hd : deliver s sender m = s := by unfold deliver; rw [hH]
        rw [hd]
        apply inv_extend_unchanged s l (sender, m) ⟨hf, hrange, hlive, htot⟩
        intro _
        exact Or.inr h3
      · push_neg at h3
        rw [if_neg (by push_neg; exact h3)] at hH
        rw [if_neg (fun hc => hnof hc.2)] at hH
        have hd : deliver s sender m =
            { s with q := fun g => if g = m.gate then s.q g ++ [m.data] else s.q g } := by
          unfold deliver; rw [hH]
        set s2 : Session :=
          { s with q := fun g => if g = m.gate then s.q g ++ [m.data] else s.q g }
          with hs2
        rw [hd]
        have hqg : ∀ g, g ≠ m.gate → s2.q g = s.q g := by
          intro g hgne
          simp [hs2, hgne]
        have hqm : s2.q m.gate = s.q m.gate ++ [m.data] := by simp [hs2]
        have hliveG : s.q m.gate = tagAccept (proj m.gate l) 0 := by
          rcases hlive m.gate hlt with h | ⟨hp, _⟩
          · exact h
          · omega
        have hpre : ∀ g, PrefixOf (s.q g) (s2.q g) := by
          intro g
          by_cases hgm : g = m.gate
          · subst hgm
            rw [hqm]
            exact ⟨[m.data], rfl⟩
          · rw [hqg g hgm]
            exact prefixOf_refl _
        have hmono : s.pos ≤ s2.pos :=
          runGates_pos_mono s.me s.q s2.q hpre s.circuit.gates 0 s.initWires [] []
        have hlen2 : s2.circuit.gates.length = s.circuit.gates.length := rfl
        refine ⟨hf, ?_, ?_, ?_⟩
        · intro g hg
          rw [hqg g (by omega)]
          exact hrange g (by omega)
        · intro g hg
          by_cases hgm : g = m.gate
          · subst hgm
            left
            rw [hqm, proj_snoc_eq m.gate l (sender, m) rfl, tagAccept_snoc, hliveG]
            rw [if_pos (by rw [Nat.zero_add, ← congrArg List.length hliveG]; exact h3)]
          · rw [hqg g hgm, proj_snoc_ne g l (sender, m) (fun hc => hgm hc.symm)]
            rcases hlive g hg with h | ⟨hp, hpreg⟩
            · exact Or.inl h
            · exact Or.inr ⟨by omega, hpreg⟩
        · have hb : s2.totalQ = s.totalQ + 1 := by
            unfold Session.totalQ
            apply sumUpTo_bump (fun g => (s.q g).length) (fun g => (s2.q g).length)
              s.circuit.gates.length m.gate hlt
            · intro g hgne
              rw [hqg g hgne]
            · rw [hqm]
              simp
          rw [show (l ++ [(sender, m)]).length = l.length + 1 from by simp, hb]
          omega

/-- Delivering a message never changes the session's static binding. -/
theorem deliver_fields (s : Session) (sender : PartyId) (m : Msg) :
    (deliver s sender m).circuit = s.circuit ∧ (deliver s sender m).me = s.me ∧
    (deliver s sender m).peer = s.peer ∧
    (deliver s sender m).maxBuffered = s.maxBuffered ∧
    (deliver s sender m).initWires = s.initWires := by
  unfold deliver
  cases hm : handleMessage s sender m with
  | error e => exact ⟨rfl, rfl, rfl, rfl, rfl⟩
  | ok s2 =>
    obtain ⟨-, -, hcase⟩ := handleMessage_ok_cases s sender m s2 hm
    rcases hcase with rfl | rfl <;> exact ⟨rfl, rfl, rfl, rfl, rfl⟩

/-- A whole run never changes the session's static binding. -/
theorem deliverAll_fields (s : Session) (l : List (PartyId × Msg)) :
    (deliverAll s l).circuit = s.circuit ∧ (deliverAll s l).me = s.me ∧
    (deliverAll s l).peer = s.peer ∧
    (deliverAll s l).maxBuffered = s.maxBuffered ∧
    (deliverAll s l).initWires = s.initWires := by
  induction l generalizing s with
  | nil => exact ⟨rfl, rfl, rfl, rfl, rfl⟩
  | cons pm rest ih =>
    obtain ⟨h1, h2, h3, h4, h5⟩ := ih (deliver s pm.1 pm.2)
    obtain ⟨g1, g2, g3, g4, g5⟩ := deliver_fields s pm.1 pm.2
    exact ⟨h1.trans g1, h2.trans g2, h3.trans g3, h4.trans g4, h5.trans g5⟩

/-- Delivering a whole list of peer messages within the bound preserves the
acceptance invariant. -/
theorem deliverAll_inv_acc (l2 : List (PartyId × Msg)) :
    ∀ (l1 : List (PartyId × Msg)) (s : Session), SessInv s l1 →
    (∀ pm ∈ l2, pm.1 = s.peer) → l1.length + l2.length ≤ s.maxBuffered →
    SessInv (deliverAll s l2) (l1 ++ l2) := by
  induction l2 with
  | nil => intro l1 s h _ _; simpa using h
  | cons pm rest ih =>
    intro l1 s hinv hpeer hlen
    have hpm : pm.1 = s.peer := hpeer pm (List.mem_cons_self _ _)
    have hstep : SessInv (deliver s pm.1 pm.2) (l1 ++ [pm]) :=
      deliver_inv_acc s pm.1 pm.2 l1 hinv hpm (by simp at hlen; omega)
    obtain ⟨-, -, hpeer2, hmax2, -⟩ := deliver_fields s pm.1 pm.2
    have := ih (l1 ++ [pm]) (deliver s pm.1 pm.2) hstep
      (fun pm2 hm => by rw [hpeer2]; exact hpeer pm2 (List.mem_cons_of_mem _ hm))
      (by rw [hmax2]; simp at hlen ⊢; omega)
    simpa [List.append_assoc] using this

/-- C8: for any circuit and valid join, two delivery schedules of peer
messages that agree gate by gate — the same per-gate message sequences, i.e.
they differ only by reordering messages across different gates, never within
one gate's round sequence — drive the session to the same final output (the
fully in-order schedule being one such schedule); the schedules are assumed to
fit within the configured buffered-message bound. -/
theorem reordering_tolerance (c : Circuit) (maxB : Nat) (pid : PartyId)
    (priv : List (String × Int)) (s0 : Session)
    (hjoin : join c maxB pid priv = .ok s0)
    (l1 l2 : List (PartyId × Msg))
    (hp1 : ∀ pm ∈ l1, pm.1 = s0.peer) (hp2 : ∀ pm ∈ l2, pm.1 = s0.peer)
    (hproj : ∀ g, proj g l1 = proj g l2)
    (hb1 : l1.length ≤ maxB) (hb2 : l2.length ≤ maxB) :
    (deliverAll s0 l1).outputNow = (deliverAll s0 l2).outputNow := by
  obtain ⟨hcir, hme, hmb, hf0, hq0⟩ := (join_validation c maxB pid priv).2.2 s0 hjoin
  have hinv1 : SessInv (deliverAll s0 l1) l1 := by
    have := deliverAll_inv_acc l1 [] s0 (inv_init s0 hq0 hf0) hp1
      (by rw [hmb]; simpa using hb1)
    simpa using this
  have hinv2 : SessInv (deliverAll s0 l2) l2 := by
    have := deliverAll_inv_acc l2 [] s0 (inv_init s0 hq0 hf0) hp2
      (by rw [hmb]; simpa using hb2)
    simpa using this
  obtain ⟨hc1, hm1, -, -, hw1⟩ := deliverAll_fields s0 l1
  obtain ⟨hc2, hm2, -, -, hw2⟩ := deliverAll_fields s0 l2
  obtain ⟨hfA, hrangeA, hliveA, -⟩ := hinv1
  obtain ⟨hfB, hrangeB, hliveB, -⟩ := hinv2
  have heval : (deliverAll s0 l1).evalNow = (deliverAll s0 l2).evalNow := by
    unfold Session.evalNow
    rw [hc1, hc2, hm1, hm2, hw1, hw2]
    apply runGates_congr
    intro g _ gt hgt
    rw [Nat.sub_zero] at hgt
    have hg : g < s0.circuit.gates.length := by
      by_contra hgge
      rw [List.getElem?_eq_none (by omega)] at hgt
      exact absurd hgt (by simp)
    have hscan : tagAccept (proj g l1) 0 = tagAccept (proj g l2) 0 := by
      rw [hproj g]
    have hgA : g < (deliverAll s0 l1).circuit.gates.length := by rw [hc1]; exact hg
    have hgB : g < (deliverAll s0 l2).circuit.gates.length := by rw [hc2]; exact hg
    rcases hliveA g hgA with hA | ⟨hpA, hpreA⟩ <;>
      rcases hliveB g hgB with hB | ⟨hpB, hpreB⟩
    · rw [hA, hB, hscan]
      exact ⟨rfl, Iff.rfl⟩
    · have hsatB : gt.rounds s0.me ≤ ((deliverAll s0 l2).q g).length := by
        have := session_passed_saturated (deliverAll s0 l2) g gt
          (by rw [hc2]; exact hgt) hpB
        rw [hm2] at this
        exact this
      have hlB := prefixOf_length_le _ _ hpreB
      have hlen12 : (tagAccept (proj g l1) 0).length =
          (tagAccept (proj g l2) 0).length := congrArg List.length hscan
      constructor
      · rw [hA, hscan, prefixOf_take_eq _ _ hpreB _ hsatB]
      · rw [hA]
        constructor
        · intro _; exact hsatB
        · intro _; omega
    · have hsatA : gt.rounds s0.me ≤ ((deliverAll s0 l1).q g).length := by
        have := session_passed_saturated (deliverAll s0 l1) g gt
          (by rw [hc1]; exact hgt) hpA
        rw [hm1] at this
        exact this
      have hlA := prefixOf_length_le _ _ hpreA
      have hlen12 : (tagAccept (proj g l1) 0).length =
          (tagAccept (proj g l2) 0).length := congrArg List.length hscan
      constructor
      · rw [hB, ← hscan, prefixOf_take_eq _ _ hpreA _ hsatA]
      · rw [hB]
        constructor
        · intro _; omega
        · intro _; exact hsatA
    · have hsatA : gt.rounds s0.me ≤ ((deliverAll s0 l1).q g).length := by
        have := session_passed_saturated (deliverAll s0 l1) g gt
          (by rw [hc1]; exact hgt) hpA
        rw [hm1] at this
        exact this
      have hsatB : gt.rounds s0.me ≤ ((deliverAll s0 l2).q g).length := by
        have := session_passed_saturated (deliverAll s0 l2) g gt
          (by rw [hc2]; exact hgt) hpB
        rw [hm2] at this
        exact this
      constructor
      · rw [← prefixOf_take_eq _ _ hpreA _ hsatA, ← prefixOf_take_eq _ _ hpreB _ hsatB,
          hscan]
      · constructor
        · intro _; exact hsatB
        · intro _; exact hsatA
  have hraw : (deliverAll s0 l1).rawOut = (deliverAll s0 l2).rawOut := by
    unfold Session.rawOut Session.pos Session.wiresNow
    rw [heval, hc1, hc2]
  simp only [Session.outputNow, hfA, hfB, hraw]

/-- Witness for `reordering_tolerance`: on the two-gate circuit, the two
opposite interleavings of the gate-0 and gate-1 messages complete with the
same (fully populated) output. -/
theorem reordering_tolerance_witness :
    (deliverAll bobRoomy [("alice", ⟨0, 0, 7⟩), ("alice", ⟨1, 0, 9⟩)]).outputNow =
      some (.ok [("o0", 7), ("o1", 9)]) ∧
    (deliverAll bobRoomy [("alice", ⟨0, 0, 7⟩), ("alice", ⟨1, 0, 9⟩)]).outputNow =
      (deliverAll bobRoomy [("alice", ⟨1, 0, 9⟩), ("alice", ⟨0, 0, 7⟩)]).outputNow :=
  ⟨by rfl,
   reordering_tolerance twoGateCircuit 5 "bob" [("b", 0)] bobRoomy (by rfl)
     [("alice", ⟨0, 0, 7⟩), ("alice", ⟨1, 0, 9⟩)]
     [("alice", ⟨1, 0, 9⟩), ("alice", ⟨0, 0, 7⟩)]
     (by decide) (by decide)
     (by intro g
         cases g with
         | zero => rfl
         | succ g2 =>
           cases g2 with
           | zero => rfl
           | succ g3 => rfl)
     (by decide) (by decide)⟩
